import Mathlib

/-!
# hhxx::multi_view — index and stride computation

A shallow embedding of `src/hhxx/multi_view.hpp`.

* `std::size_t` is a 64-bit unsigned integer: a value is a `Nat`, and every
  operation the source performs on it is followed by `% size_mod`.
* The iterator `base_` is a position in the linear range, a `Nat`; `base_ + n`
  is the position `n` places further.
* The array `steps_[max_dim + 1]` is a `List Nat` of length `max_dim + 1`.
* Index values are `Int` (the source asserts `idxes[i] >= 0`, so the index
  type may be signed). `begin` uses an index only through its conversion to
  `std::size_t` in `idxes[i] * steps_[i]`; `end` adds 1 to the last index in the
  index type, an `index_type`, where the sum wraps around at the greatest value.
  Extents are `Nat` and are converted to `std::size_t` when they are copied
  into `steps_`.
* `static_assert` and `assert` are checked: a failing one is a `Fault`.
* `end` is a keyword of Lean, so `multi_view::end` is `multi_view.end_`;
  `operator ()` is `multi_view.call` and the constructor is `multi_view.ctor`.
-/

namespace hhxx

/-- Number of values of `std::size_t`; arithmetic on `std::size_t` is modulo this. -/
def size_mod : Nat := 2 ^ 64

/-- Conversion of an integer value to `std::size_t`. -/
def to_size_t (x : Int) : Nat := (x % (size_mod : Int)).toNat

/-- Ways in which an operation fails to return. -/
inductive Fault where
  /-- The `static_assert(0 < n && n <= max_dim, "")` of the constructor. -/
  | static_assertion
  /-- An `assert(...)` of the source. -/
  | assertion
  /-- A read outside `steps_` or outside the linear range. -/
  | out_of_range
  deriving DecidableEq, Repr

/-- Source: `static constexpr std::size_t max_dim = 10;` -/
def max_dim : Nat := 10

/-- The data members `base_`, `steps_` and `num_elements_` of `multi_view`. -/
structure multi_view where
  base_ : Nat
  steps_ : List Nat
  num_elements_ : Nat
  deriving DecidableEq, Repr

/-- Source: `std::copy(init_list.begin(), init_list.end(), steps_)`; the first
`src.length` slots of `dst` receive the extents converted to `std::size_t`. -/
def copy_extents (src dst : List Nat) : List Nat :=
  src.map (fun e => e % size_mod) ++ dst.drop src.length

/-- Source: `acc *= std::exchange(steps_[i], acc);` — slot `i` receives the
current accumulator, and the accumulator is multiplied by the old slot value. -/
def ctor_body (steps : List Nat) (acc i : Nat) : List Nat × Nat :=
  (steps.set i acc, (acc * steps.getD i 0) % size_mod)

/-- Source: `do { acc *= std::exchange(steps_[i], acc); } while (i-- > 0);`
started at index `i`: the body runs at `i`, `i - 1`, ..., `0`. -/
def ctor_loop : Nat → List Nat → Nat → List Nat × Nat
  | 0, steps, acc => ctor_body steps acc 0
  | i + 1, steps, acc =>
    ctor_loop i (ctor_body steps acc (i + 1)).1 (ctor_body steps acc (i + 1)).2

/-- Source: `multi_view::multi_view(Iterator base, Ts... extents)`. -/
def multi_view.ctor (base : Nat) (extents : List Nat) : Except Fault multi_view :=
  let n := extents.length
  if 0 < n ∧ n ≤ max_dim then
    let steps0 := copy_extents extents (List.replicate (max_dim + 1) 0)
    let r := ctor_loop (n - 1) steps0 1
    if r.2 = 0 then Except.error Fault.assertion
    else Except.ok { base_ := base, steps_ := r.1, num_elements_ := r.2 }
  else Except.error Fault.static_assertion

/-- Source: `make_multi_view(Iterator base, Ts... extents)`. -/
def make_multi_view (base : Nat) (extents : List Nat) : Except Fault multi_view :=
  multi_view.ctor base extents

/-- Source: the loop of `begin(Ts... indices)`,
`for (i = 0; i < sizeof...(indices) && steps_[i]; ++i)` with body
`assert(idxes[i] >= 0); offset += idxes[i] * steps_[i];`,
from position `i` with the indices not yet consumed. -/
def begin_loop (steps : List Nat) : Nat → List Int → Nat → Except Fault Nat
  | _, [], offset => Except.ok offset
  | i, idx :: rest, offset =>
    match steps[i]? with
    | none => Except.error Fault.out_of_range
    | some s =>
      if s = 0 then Except.ok offset
      else if idx < 0 then Except.error Fault.assertion
      else begin_loop steps (i + 1) rest
        ((offset + (to_size_t idx * s) % size_mod) % size_mod)

/-- Source: `begin()` and `begin(Ts... indices)`. -/
def multi_view.begin (v : multi_view) : List Int → Except Fault Nat
  | [] => Except.ok v.base_
  | idx :: rest =>
    match begin_loop v.steps_ 0 (idx :: rest) 0 with
    | Except.ok offset => Except.ok (v.base_ + offset)
    | Except.error f => Except.error f

/-- The integer type `Ts` of the indices of a call, as far as `end_impl` depends
on it: the type in which `indices + (... ? 1 : 0)` is evaluated (the index type
after the usual arithmetic conversions with `int`), given by its least and its
greatest value. -/
structure index_type where
  lo : Int
  hi : Int
  lo_le : lo ≤ 0
  hi_pos : 0 < hi

/-- The type `int`, 32 bits. -/
def index_type.int32 : index_type :=
  { lo := -2147483648, hi := 2147483647, lo_le := by decide, hi_pos := by decide }

/-- The type `unsigned int`, 32 bits. -/
def index_type.uint32 : index_type :=
  { lo := 0, hi := 4294967295, lo_le := by decide, hi_pos := by decide }

/-- The type `std::size_t`, 64 bits, as an index type. -/
def index_type.uint64 : index_type :=
  { lo := 0, hi := 18446744073709551615, lo_le := by decide, hi_pos := by decide }

/-- The sum `x + d` of an index `x` and `d`, which is 0 or 1, evaluated in the
index type: when `x` is a value of the type and the sum exceeds the greatest
value, the result wraps around, `hi + 1` to `lo`. For an unsigned type this is
the arithmetic of the language; for a signed type the overflow is undefined in
the language and this is the two's-complement result the compiled code has. -/
def index_type.add (T : index_type) (x d : Int) : Int :=
  if x ≤ T.hi ∧ T.hi < x + d then x + d - (T.hi - T.lo + 1) else x + d

/-- Source: `std::index_sequence_for<Ts...>{}`, the sequence `0, ..., k - 1`. -/
def index_sequence_for (indices : List Int) : List Nat :=
  List.range indices.length

/-- Source: `end_impl(std::index_sequence<seq...>, Ts... indices)`, which is
`begin(indices + (seq == sizeof...(Ts) - 1 ? 1 : 0) ...)`, each sum evaluated in
the index type `T` of the indices. -/
def multi_view.end_impl (v : multi_view) (T : index_type) (seq : List Nat)
    (indices : List Int) : Except Fault Nat :=
  v.begin (List.zipWith
    (fun s idx => T.add idx (if s = indices.length - 1 then 1 else 0)) seq indices)

/-- Source: `end()` and `end(Ts... indices)`, for indices of the type `T`. -/
def multi_view.end_ (v : multi_view) (T : index_type) : List Int → Except Fault Nat
  | [] => Except.ok (v.base_ + v.num_elements_)
  | idx :: rest => v.end_impl T (index_sequence_for (idx :: rest)) (idx :: rest)

/-- Dereference of a position of the linear range `mem`. -/
def deref {α : Type} (mem : List α) (pos : Nat) : Except Fault α :=
  match mem[pos]? with
  | some x => Except.ok x
  | none => Except.error Fault.out_of_range

/-- Source: `operator ()(Ts... indices)`, which is `*begin(indices...)`. -/
def multi_view.call {α : Type} (v : multi_view) (mem : List α) (indices : List Int) :
    Except Fault α :=
  match v.begin indices with
  | Except.ok pos => deref mem pos
  | Except.error f => Except.error f

/-- What a run of the loop of `begin` does: the positions of `steps_` it reads,
in order, the positions whose term `idxes[i] * steps_[i]` it adds to `offset`,
and how it ends. -/
structure loop_record where
  reads : List Nat
  terms : List Nat
  result : Except Fault Nat

/-- Source: the loop of `begin(Ts... indices)` as in `begin_loop`, with its
reads of `steps_` recorded: the condition `i < sizeof...(indices) && steps_[i]`
reads `steps_[i]` only when `i < sizeof...(indices)`, and the body
`offset += idxes[i] * steps_[i]` reads it once more after the assertion. -/
def begin_loop_rec (steps : List Nat) : Nat → List Int → Nat → loop_record
  | _, [], offset => { reads := [], terms := [], result := Except.ok offset }
  | i, idx :: rest, offset =>
    match steps[i]? with
    | none => { reads := [i], terms := [], result := Except.error Fault.out_of_range }
    | some s =>
      if s = 0 then { reads := [i], terms := [], result := Except.ok offset }
      else if idx < 0 then
        { reads := [i], terms := [], result := Except.error Fault.assertion }
      else
        let r := begin_loop_rec steps (i + 1) rest
          ((offset + (to_size_t idx * s) % size_mod) % size_mod)
        { reads := i :: i :: r.reads, terms := i :: r.terms, result := r.result }

/-! ## Quantities the specification speaks of -/

/-- The sum `Σ idx_i * strides[i]` over the positions both lists have, an
exact natural number. -/
def weighted_sum : List Int → List Nat → Nat
  | idx :: rest, s :: ss => idx.toNat * s + weighted_sum rest ss
  | _, _ => 0

/-- Row-major strides of an extent list: entry `i` is the product of the
extents after position `i`. -/
def row_major_strides : List Nat → List Nat
  | [] => []
  | _ :: es => es.prod :: row_major_strides es

/-- What the constructor's pass stores for the extents `es` when the
accumulator starts at `acc`: the suffix products times `acc`, reduced modulo
`size_mod`. -/
def strides_from (acc : Nat) : List Nat → List Nat
  | [] => []
  | _ :: es => (acc * es.prod) % size_mod :: strides_from acc es

/-- A full index tuple `t` is valid for the extents `es`: same length and
`0 ≤ t_j < e_j` at every position. -/
def valid_indices : List Nat → List Int → Bool
  | [], [] => true
  | e :: es, i :: t => decide (0 ≤ i) && decide (i < (e : Int)) && valid_indices es t
  | _, _ => false

/-- A tuple `p` of leading indices is valid for the extents `es`: no longer
than `es` and `0 ≤ p_j < e_j` at every position it has. -/
def valid_leading : List Nat → List Int → Bool
  | _, [] => true
  | e :: es, i :: p => decide (0 ≤ i) && decide (i < (e : Int)) && valid_leading es p
  | [], _ :: _ => false

/-- All valid full index tuples for the extents `es`, in lexicographic order:
the first dimension varies slowest, the last fastest. -/
def all_tuples : List Nat → List (List Int)
  | [] => [[]]
  | e :: es => (List.range e).flatMap (fun i => (all_tuples es).map (fun t => (i : Int) :: t))

/-- The view the constructor builds for the extents `(2, 3)` at base position 0. -/
def view_2x3 : multi_view :=
  { base_ := 0, steps_ := [3, 1, 0, 0, 0, 0, 0, 0, 0, 0, 0], num_elements_ := 6 }

/-- The view the constructor builds for the extents `(2^32, 2^32 + 1)` at base
position 0; their product `2^64 + 2^32` wraps around to `2^32`. -/
def view_wrapped : multi_view :=
  { base_ := 0, steps_ := [4294967297, 1, 0, 0, 0, 0, 0, 0, 0, 0, 0],
    num_elements_ := 4294967296 }

/-! ## The constructor's pass -/

theorem size_mod_pos : 0 < size_mod := by decide

theorem prod_map_mod (l : List Nat) :
    (l.map (fun e => e % size_mod)).prod % size_mod = l.prod % size_mod := by
  induction l with
  | nil => rfl
  | cons e es ih =>
    simp only [List.map_cons, List.prod_cons]
    rw [Nat.mul_mod, ih, Nat.mod_mod, ← Nat.mul_mod]

theorem strides_from_mod (a : Nat) (l : List Nat) :
    strides_from (a % size_mod) l = strides_from a l := by
  induction l with
  | nil => rfl
  | cons e es ih =>
    simp only [strides_from, ih]
    rw [Nat.mul_mod, Nat.mod_mod, ← Nat.mul_mod]

theorem strides_from_map_mod (a : Nat) (l : List Nat) :
    strides_from a (l.map (fun e => e % size_mod)) = strides_from a l := by
  induction l with
  | nil => rfl
  | cons e es ih =>
    simp only [List.map_cons, strides_from, ih]
    rw [Nat.mul_mod, prod_map_mod, ← Nat.mul_mod]

theorem strides_from_concat (acc e : Nat) (l : List Nat) :
    strides_from acc (l ++ [e]) = strides_from (acc * e) l ++ [acc % size_mod] := by
  induction l with
  | nil => simp [strides_from]
  | cons x xs ih =>
    simp only [List.cons_append, strides_from, List.append_eq, ih, List.prod_append,
      List.prod_cons, List.prod_nil, mul_one]
    rw [show acc * (xs.prod * e) = acc * e * xs.prod by ring]

theorem strides_from_length (acc : Nat) (l : List Nat) :
    (strides_from acc l).length = l.length := by
  induction l with
  | nil => rfl
  | cons x xs ih => simp [strides_from, ih]

/-- The pass started at the last position of `pre` stores `strides_from acc pre`
over `pre`, leaves the slots after it alone, and ends with the accumulator
`acc * pre.prod` reduced modulo `size_mod`. -/
theorem ctor_loop_spec (i : Nat) : ∀ (pre suf : List Nat) (acc : Nat),
    pre.length = i + 1 → acc < size_mod →
    ctor_loop i (pre ++ suf) acc
      = (strides_from acc pre ++ suf, (acc * pre.prod) % size_mod) := by
  induction i with
  | zero =>
    intro pre suf acc hlen hacc
    match pre, hlen with
    | [e], _ =>
      simp [ctor_loop, ctor_body, strides_from, Nat.mod_eq_of_lt hacc]
  | succ i ih =>
    intro pre suf acc hlen hacc
    rcases List.eq_nil_or_concat pre with h | ⟨pre', e, h⟩
    · subst h; simp at hlen
    · subst h
      simp only [List.concat_eq_append, List.length_append, List.length_singleton,
        Nat.add_right_cancel_iff] at hlen
      have hget : (pre' ++ [e] ++ suf).getD (i + 1) 0 = e := by
        rw [List.append_assoc, List.getD_append_right _ _ _ _ (by omega)]
        simp [hlen]
      have hset : (pre' ++ [e] ++ suf).set (i + 1) acc = pre' ++ ([acc] ++ suf) := by
        rw [List.append_assoc, List.set_append]
        simp [hlen]
      simp only [List.concat_eq_append, ctor_loop, ctor_body, hget, hset]
      rw [ih pre' ([acc] ++ suf) _ hlen (Nat.mod_lt _ size_mod_pos), strides_from_mod,
        strides_from_concat, Nat.mod_eq_of_lt hacc]
      simp only [List.append_assoc, List.prod_append, List.prod_cons, List.prod_nil, mul_one]
      congr 1
      rw [Nat.mul_mod, Nat.mod_mod, ← Nat.mul_mod]
      congr 1
      ring

/-- The constructor in closed form. -/
theorem ctor_eq (base : Nat) (es : List Nat) (h0 : 0 < es.length)
    (h1 : es.length ≤ max_dim) :
    multi_view.ctor base es =
      if es.prod % size_mod = 0 then Except.error Fault.assertion
      else Except.ok
        { base_ := base
          steps_ := strides_from 1 es ++ List.replicate (max_dim + 1 - es.length) 0
          num_elements_ := es.prod % size_mod } := by
  have hcopy : copy_extents es (List.replicate (max_dim + 1) 0)
      = es.map (fun e => e % size_mod) ++ List.replicate (max_dim + 1 - es.length) 0 := by
    simp [copy_extents]
  have hlen : (es.map (fun e => e % size_mod)).length = es.length - 1 + 1 := by
    simp; omega
  simp only [multi_view.ctor, h0, h1, and_self, if_true, hcopy]
  rw [ctor_loop_spec _ _ _ 1 hlen (by decide), strides_from_map_mod, one_mul, prod_map_mod]

/-- What a successful construction stores. -/
theorem ctor_ok_inv (base : Nat) (es : List Nat) (v : multi_view)
    (hv : multi_view.ctor base es = Except.ok v) :
    0 < es.length ∧ es.length ≤ max_dim ∧ es.prod % size_mod ≠ 0 ∧
    v = { base_ := base
          steps_ := strides_from 1 es ++ List.replicate (max_dim + 1 - es.length) 0
          num_elements_ := es.prod % size_mod } := by
  by_cases hn : 0 < es.length ∧ es.length ≤ max_dim
  · rw [ctor_eq base es hn.1 hn.2] at hv
    by_cases hp : es.prod % size_mod = 0
    · simp [hp] at hv
    · simp only [hp, if_false, Except.ok.injEq] at hv
      exact ⟨hn.1, hn.2, hp, hv.symm⟩
  · simp [multi_view.ctor, hn] at hv

theorem strides_from_ne_zero (acc : Nat) (es : List Nat) :
    (acc * es.prod) % size_mod ≠ 0 → ∀ s ∈ strides_from acc es, s ≠ 0 := by
  induction es with
  | nil => intro _ s hs; simp [strides_from] at hs
  | cons e es ih =>
    intro h
    have h1 : (acc * es.prod) % size_mod ≠ 0 := by
      intro h0
      apply h
      have hd : size_mod ∣ acc * es.prod := Nat.dvd_of_mod_eq_zero h0
      apply Nat.mod_eq_zero_of_dvd
      rw [List.prod_cons, show acc * (e * es.prod) = acc * es.prod * e by ring]
      exact Dvd.dvd.mul_right hd e
    intro s hs
    simp only [strides_from, List.mem_cons] at hs
    rcases hs with rfl | hs
    · exact h1
    · exact ih h1 s hs

/-- Without wrap-around the stored strides are the row-major strides. -/
theorem strides_from_one_eq (es : List Nat) (h0 : es.prod ≠ 0) (hlt : es.prod < size_mod) :
    strides_from 1 es = row_major_strides es := by
  induction es with
  | nil => rfl
  | cons e es ih =>
    rw [List.prod_cons] at h0 hlt
    have he : 1 ≤ e := Nat.one_le_iff_ne_zero.mpr (fun h => h0 (by simp [h]))
    have hp : es.prod ≠ 0 := fun h => h0 (by simp [h])
    have hle : es.prod ≤ e * es.prod := Nat.le_mul_of_pos_left _ he
    have hlt2 : es.prod < size_mod := lt_of_le_of_lt hle hlt
    simp only [strides_from, row_major_strides, one_mul, Nat.mod_eq_of_lt hlt2]
    rw [ih hp hlt2]

theorem row_major_strides_getElem? (es : List Nat) :
    ∀ i, i < es.length → (row_major_strides es)[i]? = some (es.drop (i + 1)).prod := by
  induction es with
  | nil => intro i hi; simp at hi
  | cons e es ih =>
    intro i hi
    cases i with
    | zero => simp [row_major_strides]
    | succ i =>
      simp only [List.length_cons, Nat.add_lt_add_iff_right] at hi
      simp only [row_major_strides, List.getElem?_cons_succ, List.drop_succ_cons]
      exact ih i hi

theorem row_major_strides_length (es : List Nat) :
    (row_major_strides es).length = es.length := by
  induction es with
  | nil => rfl
  | cons e es ih => simp [row_major_strides, ih]

/-! ## The loop of `begin` -/

theorem to_size_t_of_nonneg (x : Int) (hx : 0 ≤ x) : to_size_t x = x.toNat % size_mod := by
  obtain ⟨n, rfl⟩ := Int.eq_ofNat_of_zero_le hx
  simp only [to_size_t, Int.toNat_ofNat]
  rw [← Int.natCast_mod, Int.toNat_ofNat]

theorem begin_loop_cons (s : Nat) (ss : List Nat) (idxs : List Int) :
    ∀ (i offset : Nat),
    begin_loop (s :: ss) (i + 1) idxs offset = begin_loop ss i idxs offset := by
  induction idxs with
  | nil => intro i offset; simp [begin_loop]
  | cons idx rest ih =>
    intro i offset
    simp only [begin_loop, List.getElem?_cons_succ]
    cases ss[i]? with
    | none => rfl
    | some t => simp only [ih]

theorem weighted_sum_append_right (idxs : List Int) :
    ∀ (ss tail : List Nat), idxs.length ≤ ss.length →
    weighted_sum idxs (ss ++ tail) = weighted_sum idxs ss := by
  induction idxs with
  | nil => intro ss tail _; simp [weighted_sum]
  | cons idx rest ih =>
    intro ss tail h
    cases ss with
    | nil => simp at h
    | cons s ss =>
      simp only [List.length_cons, Nat.add_le_add_iff_right] at h
      simp only [List.cons_append, weighted_sum, List.append_eq, ih ss tail h]

theorem weighted_sum_zeros (m : Nat) : ∀ (ss : List Nat),
    weighted_sum (List.replicate m (0 : Int)) ss = 0 := by
  induction m with
  | zero => intro ss; simp [weighted_sum]
  | succ m ih =>
    intro ss
    cases ss with
    | nil => simp [List.replicate_succ, weighted_sum]
    | cons s ss => simp [List.replicate_succ, weighted_sum, ih]

theorem weighted_sum_append_zeros (idxs : List Int) (m : Nat) : ∀ (ss : List Nat),
    weighted_sum (idxs ++ List.replicate m (0 : Int)) ss = weighted_sum idxs ss := by
  induction idxs with
  | nil => intro ss; simp [weighted_sum_zeros, weighted_sum]
  | cons idx rest ih =>
    intro ss
    cases ss with
    | nil => simp [weighted_sum]
    | cons s ss => simp [weighted_sum, ih]

theorem offset_step_mod (offset t a w : Nat) (h : t % size_mod = a % size_mod) :
    ((offset + t % size_mod) % size_mod + w) % size_mod
      = (offset + (a + w)) % size_mod := by
  rw [h]
  simp only [size_mod]
  omega

/-- On nonzero strides and non-negative indices the loop of `begin` adds the
weighted sum to the offset, modulo `size_mod`. -/
theorem begin_loop_eq (idxs : List Int) : ∀ (ss tail : List Nat) (offset : Nat),
    idxs.length ≤ ss.length → (∀ s ∈ ss, s ≠ 0) → (∀ x ∈ idxs, 0 ≤ x) →
    offset < size_mod →
    begin_loop (ss ++ tail) 0 idxs offset
      = Except.ok ((offset + weighted_sum idxs ss) % size_mod) := by
  induction idxs with
  | nil =>
    intro ss tail offset _ _ _ hoff
    simp [begin_loop, weighted_sum, Nat.mod_eq_of_lt hoff]
  | cons idx rest ih =>
    intro ss tail offset hlen hss hidx hoff
    cases ss with
    | nil => simp at hlen
    | cons s ss =>
      simp only [List.length_cons, Nat.add_le_add_iff_right] at hlen
      have hs : s ≠ 0 := hss s (List.mem_cons_self _ _)
      have hi : 0 ≤ idx := hidx idx (List.mem_cons_self _ _)
      have hi2 : ¬ idx < 0 := not_lt.mpr hi
      simp only [List.cons_append, begin_loop, List.getElem?_cons_zero, hs, if_false, hi2,
        Nat.zero_add, begin_loop_cons]
      rw [ih ss tail _ hlen (fun x hx => hss x (List.mem_cons_of_mem _ hx))
        (fun x hx => hidx x (List.mem_cons_of_mem _ hx)) (Nat.mod_lt _ size_mod_pos)]
      simp only [weighted_sum]
      rw [offset_step_mod]
      rw [to_size_t_of_nonneg idx hi, Nat.mul_mod, Nat.mod_mod, ← Nat.mul_mod]

/-- On a constructed view, `begin` with `1 ≤ k ≤ N` non-negative indices returns
the base plus the weighted sum over the stored strides, reduced modulo `size_mod`. -/
theorem begin_of_ctor (base : Nat) (es : List Nat) (v : multi_view) (idxs : List Int)
    (hv : multi_view.ctor base es = Except.ok v)
    (hk : 1 ≤ idxs.length) (hkN : idxs.length ≤ es.length) (hnn : ∀ x ∈ idxs, 0 ≤ x) :
    v.begin idxs = Except.ok (base + weighted_sum idxs (strides_from 1 es) % size_mod) := by
  obtain ⟨_, _, hp, rfl⟩ := ctor_ok_inv base es v hv
  cases idxs with
  | nil => simp at hk
  | cons idx rest =>
    have hnz : ∀ s ∈ strides_from 1 es, s ≠ 0 :=
      strides_from_ne_zero 1 es (by rwa [one_mul])
    simp only [multi_view.begin]
    rw [begin_loop_eq (idx :: rest) (strides_from 1 es) _ 0
      (by rw [strides_from_length]; exact hkN) hnz hnn size_mod_pos]
    simp

/-- Without wrap-around the constructor succeeds and stores the row-major
strides and the product of the extents. -/
theorem ctor_of_small (base : Nat) (es : List Nat) (h0 : 0 < es.length)
    (h1 : es.length ≤ max_dim) (hp0 : es.prod ≠ 0) (hplt : es.prod < size_mod) :
    multi_view.ctor base es = Except.ok
      { base_ := base
        steps_ := row_major_strides es ++ List.replicate (max_dim + 1 - es.length) 0
        num_elements_ := es.prod } := by
  have hmod : es.prod % size_mod ≠ 0 := by
    rw [Nat.mod_eq_of_lt hplt]; exact hp0
  rw [ctor_eq base es h0 h1, if_neg hmod, strides_from_one_eq es hp0 hplt,
    Nat.mod_eq_of_lt hplt]

/-! ## The index pack of `end_impl` -/

theorem index_type.add_zero (T : index_type) (x : Int) : T.add x 0 = x := by
  unfold index_type.add
  split
  · omega
  · omega

theorem index_type.add_one_of_ne (T : index_type) (x : Int) (h : x ≠ T.hi) :
    T.add x 1 = x + 1 := by
  unfold index_type.add
  split
  · omega
  · rfl

theorem index_type.add_one_hi (T : index_type) : T.add T.hi 1 = T.lo := by
  unfold index_type.add
  split
  · omega
  · omega

theorem zipWith_bump_of_ne (T : index_type) (n : Nat) (seq : List Nat) :
    ∀ (l : List Int), (∀ s ∈ seq, s ≠ n) →
    List.zipWith (fun s idx => T.add idx (if s = n then 1 else 0)) seq l
      = l.take seq.length := by
  induction seq with
  | nil => intro l _; simp
  | cons s seq ih =>
    intro l h
    cases l with
    | nil => simp
    | cons x l =>
      have hs : s ≠ n := h s (List.mem_cons_self _ _)
      simp only [List.zipWith_cons_cons, hs, if_false, index_type.add_zero,
        List.length_cons, List.take_succ_cons]
      rw [ih l (fun t ht => h t (List.mem_cons_of_mem _ ht))]

/-- The pack expansion of `end_impl` over the index sequence `0, ..., k - 1`
adds 1 to the last index, in the index type, and leaves the others as they are. -/
theorem end_impl_pack (T : index_type) (init : List Int) (last : Int) :
    List.zipWith
      (fun s idx => T.add idx (if s = (init ++ [last]).length - 1 then 1 else 0))
      (index_sequence_for (init ++ [last])) (init ++ [last])
      = init ++ [T.add last 1] := by
  simp only [index_sequence_for, List.length_append, List.length_singleton,
    Nat.add_sub_cancel, List.range_succ]
  rw [List.zipWith_append _ _ _ _ _ (by simp)]
  rw [zipWith_bump_of_ne T init.length (List.range init.length) init
    (fun s hs => Nat.ne_of_lt (List.mem_range.mp hs))]
  simp

/-- Source: `end(Ts... indices)` through `end_impl`: the last index supplied is
incremented in the index type and the tuple goes to `begin`. -/
theorem end_concat (v : multi_view) (T : index_type) (init : List Int) (last : Int) :
    v.end_ T (init ++ [last]) = v.begin (init ++ [T.add last 1]) := by
  have h1 : v.end_ T (init ++ [last])
      = v.end_impl T (index_sequence_for (init ++ [last])) (init ++ [last]) := by
    cases init <;> rfl
  rw [h1, multi_view.end_impl, end_impl_pack]

/-! ## Valid index tuples and the row-major offset -/

theorem valid_indices_cons (e : Nat) (es : List Nat) (i : Int) (t : List Int) :
    valid_indices (e :: es) (i :: t) = true
      ↔ 0 ≤ i ∧ i < (e : Int) ∧ valid_indices es t = true := by
  simp [valid_indices, and_assoc]

theorem valid_leading_cons (e : Nat) (es : List Nat) (i : Int) (p : List Int) :
    valid_leading (e :: es) (i :: p) = true
      ↔ 0 ≤ i ∧ i < (e : Int) ∧ valid_leading es p = true := by
  simp [valid_leading, and_assoc]

theorem valid_indices_length (es : List Nat) : ∀ (t : List Int),
    valid_indices es t = true → t.length = es.length := by
  induction es with
  | nil => intro t h; cases t with
    | nil => rfl
    | cons i t => simp [valid_indices] at h
  | cons e es ih => intro t h; cases t with
    | nil => simp [valid_indices] at h
    | cons i t =>
      rw [valid_indices_cons] at h
      simp [ih t h.2.2]

theorem valid_indices_leading (es : List Nat) : ∀ (t : List Int),
    valid_indices es t = true → valid_leading es t = true := by
  induction es with
  | nil => intro t h; cases t with
    | nil => rfl
    | cons i t => simp [valid_indices] at h
  | cons e es ih => intro t h; cases t with
    | nil => rfl
    | cons i t =>
      rw [valid_indices_cons] at h
      rw [valid_leading_cons]
      exact ⟨h.1, h.2.1, ih t h.2.2⟩

theorem valid_leading_nonneg (es : List Nat) : ∀ (p : List Int),
    valid_leading es p = true → ∀ x ∈ p, 0 ≤ x := by
  induction es with
  | nil => intro p h; cases p with
    | nil => simp
    | cons i p => simp [valid_leading] at h
  | cons e es ih => intro p h; cases p with
    | nil => simp
    | cons i p =>
      rw [valid_leading_cons] at h
      intro x hx
      rcases List.mem_cons.mp hx with rfl | hx
      · exact h.1
      · exact ih p h.2.2 x hx

/-- The offset of a valid tuple of leading indices plus the size of the
sub-range it addresses stays within the product of the extents. -/
theorem weighted_sum_leading_le (es : List Nat) : ∀ (p : List Int),
    valid_leading es p = true →
    weighted_sum p (row_major_strides es) + (es.drop p.length).prod ≤ es.prod := by
  induction es with
  | nil => intro p h; cases p with
    | nil => simp [weighted_sum]
    | cons i p => simp [valid_leading] at h
  | cons e es ih => intro p h; cases p with
    | nil => simp [weighted_sum]
    | cons i p =>
      rw [valid_leading_cons] at h
      have h1 := ih p h.2.2
      have h2 : i.toNat + 1 ≤ e := by omega
      have h3 : (i.toNat + 1) * es.prod ≤ e * es.prod := Nat.mul_le_mul_right _ h2
      rw [Nat.add_mul, Nat.one_mul] at h3
      simp only [row_major_strides, weighted_sum, List.length_cons, List.drop_succ_cons,
        List.prod_cons]
      omega

theorem weighted_sum_valid_lt (es : List Nat) (t : List Int)
    (h : valid_indices es t = true) :
    weighted_sum t (row_major_strides es) < es.prod := by
  have h1 := weighted_sum_leading_le es t (valid_indices_leading es t h)
  rw [valid_indices_length es t h, List.drop_length, List.prod_nil] at h1
  omega

theorem mixed_radix_cases (P a b x y : Nat) (hx : x < P) :
    (b < a → b * P + x < a * P + y) ∧ (a < b → a * P + P ≤ b * P + x) := by
  constructor
  · intro h
    have h3 : (b + 1) * P ≤ a * P := Nat.mul_le_mul_right _ h
    rw [Nat.add_mul, Nat.one_mul] at h3
    omega
  · intro h
    have h3 : (a + 1) * P ≤ b * P := Nat.mul_le_mul_right _ h
    rw [Nat.add_mul, Nat.one_mul] at h3
    omega

/-- The row-major offset is injective on valid full tuples. -/
theorem weighted_sum_valid_inj (es : List Nat) : ∀ (t u : List Int),
    valid_indices es t = true → valid_indices es u = true →
    weighted_sum t (row_major_strides es) = weighted_sum u (row_major_strides es) →
    t = u := by
  induction es with
  | nil => intro t u ht hu _
           cases t with
           | nil => cases u with
             | nil => rfl
             | cons j u => simp [valid_indices] at hu
           | cons i t => simp [valid_indices] at ht
  | cons e es ih =>
    intro t u ht hu h
    cases t with
    | nil => simp [valid_indices] at ht
    | cons i t =>
      cases u with
      | nil => simp [valid_indices] at hu
      | cons j u =>
        rw [valid_indices_cons] at ht hu
        have hx := weighted_sum_valid_lt es t ht.2.2
        have hy := weighted_sum_valid_lt es u hu.2.2
        simp only [row_major_strides, weighted_sum] at h
        have c1 := mixed_radix_cases es.prod i.toNat j.toNat
          (weighted_sum u (row_major_strides es)) (weighted_sum t (row_major_strides es)) hy
        have c2 := mixed_radix_cases es.prod j.toNat i.toNat
          (weighted_sum t (row_major_strides es)) (weighted_sum u (row_major_strides es)) hx
        have hij : i.toNat = j.toNat := by
          rcases Nat.lt_trichotomy i.toNat j.toNat with hlt | heq | hgt
          · have := c2.1 hlt; omega
          · exact heq
          · have := c1.1 hgt; omega
        have hij2 : i = j := by omega
        subst hij2
        have hrest : weighted_sum t (row_major_strides es)
            = weighted_sum u (row_major_strides es) := by omega
        rw [ih t u ht.2.2 hu.2.2 hrest]

theorem prod_ne_zero_of_pos (es : List Nat) (hpos : ∀ e ∈ es, 1 ≤ e) : es.prod ≠ 0 :=
  Nat.pos_iff_ne_zero.mp (List.prod_pos hpos)

theorem begin_small (base : Nat) (es : List Nat) (v : multi_view) (idxs : List Int)
    (hv : multi_view.ctor base es = Except.ok v)
    (hpos : ∀ e ∈ es, 1 ≤ e) (hplt : es.prod < size_mod)
    (hk : 1 ≤ idxs.length) (hkN : idxs.length ≤ es.length) (hnn : ∀ x ∈ idxs, 0 ≤ x)
    (hfit : weighted_sum idxs (row_major_strides es) < size_mod) :
    v.begin idxs = Except.ok (base + weighted_sum idxs (row_major_strides es)) := by
  rw [begin_of_ctor base es v idxs hv hk hkN hnn,
    strides_from_one_eq es (prod_ne_zero_of_pos es hpos) hplt, Nat.mod_eq_of_lt hfit]

theorem mem_all_tuples (es : List Nat) : ∀ (t : List Int),
    t ∈ all_tuples es ↔ valid_indices es t = true := by
  induction es with
  | nil => intro t; cases t <;> simp [all_tuples, valid_indices]
  | cons e es ih =>
    intro t
    cases t with
    | nil => simp [all_tuples, valid_indices]
    | cons i t =>
      rw [valid_indices_cons]
      simp only [all_tuples, List.mem_flatMap, List.mem_range, List.mem_map, List.cons.injEq]
      constructor
      · rintro ⟨a, ha, u, hu, rfl, rfl⟩
        exact ⟨by omega, by omega, (ih u).mp hu⟩
      · rintro ⟨h0, h1, h2⟩
        exact ⟨i.toNat, by omega, t, (ih t).mpr h2, by omega, rfl⟩

theorem range_blocks (P : Nat) : ∀ (e : Nat),
    (List.range e).flatMap (fun i => (List.range P).map (fun j => i * P + j))
      = List.range (e * P) := by
  intro e
  induction e with
  | zero => simp
  | succ e ih =>
    rw [List.range_succ, List.flatMap_append, ih, List.flatMap_singleton, Nat.add_mul,
      Nat.one_mul, List.range_add]

/-- The row-major offsets of the tuples of `all_tuples es`, in the order of the
list, are `0, 1, ..., es.prod - 1`. -/
theorem all_tuples_offsets (es : List Nat) :
    (all_tuples es).map (fun t => weighted_sum t (row_major_strides es))
      = List.range es.prod := by
  induction es with
  | nil => rfl
  | cons e es ih =>
    simp only [all_tuples, List.map_flatMap, List.map_map, List.prod_cons]
    rw [← range_blocks es.prod e]
    congr 1
    funext i
    rw [← ih, List.map_map]
    apply List.map_congr_left
    intro t _
    simp [row_major_strides, weighted_sum]

/-- The list `all_tuples es` is strictly increasing in the lexicographic order. -/
theorem all_tuples_sorted (es : List Nat) :
    List.Pairwise (List.Lex (fun a b : Int => a < b)) (all_tuples es) := by
  induction es with
  | nil => simp [all_tuples]
  | cons e es ih =>
    simp only [all_tuples]
    rw [List.pairwise_flatMap]
    constructor
    · intro i _
      rw [List.pairwise_map]
      exact List.Pairwise.imp (fun h => List.Lex.cons h) ih
    · refine List.Pairwise.imp ?_ (List.pairwise_lt_range e)
      intro a b hab x hx y hy
      rw [List.mem_map] at hx hy
      obtain ⟨x1, _, rfl⟩ := hx
      obtain ⟨y1, _, rfl⟩ := hy
      exact List.Lex.rel (by omega)

/-! ## Negative indices and indices beyond the dimensions -/

/-- What a successful construction stores, with the sentinel slot written out. -/
theorem steps_of_ctor (base : Nat) (es : List Nat) (v : multi_view)
    (hv : multi_view.ctor base es = Except.ok v) :
    0 < es.length ∧ es.length ≤ max_dim ∧ v.base_ = base ∧
    (∀ s ∈ strides_from 1 es, s ≠ 0) ∧
    v.steps_ = strides_from 1 es ++ 0 :: List.replicate (max_dim - es.length) 0 := by
  obtain ⟨h0, h1, hp, rfl⟩ := ctor_ok_inv base es v hv
  refine ⟨h0, h1, rfl, strides_from_ne_zero 1 es (by rwa [one_mul]), ?_⟩
  have h : max_dim + 1 - es.length = (max_dim - es.length) + 1 := by omega
  simp only [h, List.replicate_succ]

/-- On nonzero strides a negative index among the indices the loop consumes
fails the assertion. -/
theorem begin_loop_neg (idxs : List Int) : ∀ (ss tail : List Nat) (offset : Nat),
    idxs.length ≤ ss.length → (∀ s ∈ ss, s ≠ 0) → (∃ x ∈ idxs, x < 0) →
    begin_loop (ss ++ tail) 0 idxs offset = Except.error Fault.assertion := by
  induction idxs with
  | nil => intro ss tail offset _ _ h; simp at h
  | cons idx rest ih =>
    intro ss tail offset hlen hss hneg
    cases ss with
    | nil => simp at hlen
    | cons s ss =>
      simp only [List.length_cons, Nat.add_le_add_iff_right] at hlen
      have hs : s ≠ 0 := hss s (List.mem_cons_self _ _)
      by_cases hi : idx < 0
      · simp [begin_loop, hs, hi]
      · have hrest : ∃ x ∈ rest, x < 0 := by
          obtain ⟨x, hx, hx0⟩ := hneg
          rcases List.mem_cons.mp hx with rfl | hx
          · exact absurd hx0 hi
          · exact ⟨x, hx, hx0⟩
        simp only [List.cons_append, begin_loop, List.getElem?_cons_zero, hs, if_false, hi,
          Nat.zero_add, begin_loop_cons]
        exact ih ss tail _ hlen (fun x hx => hss x (List.mem_cons_of_mem _ hx)) hrest

/-- The loop stops at a zero slot: indices from that position on are not looked at. -/
theorem begin_loop_take (ss : List Nat) : ∀ (tail : List Nat) (idxs : List Int)
    (offset : Nat),
    begin_loop (ss ++ 0 :: tail) 0 idxs offset
      = begin_loop (ss ++ 0 :: tail) 0 (idxs.take ss.length) offset := by
  induction ss with
  | nil =>
    intro tail idxs offset
    cases idxs with
    | nil => rfl
    | cons x r => simp [begin_loop]
  | cons s ss ih =>
    intro tail idxs offset
    cases idxs with
    | nil => rfl
    | cons x r =>
      simp only [List.cons_append, List.length_cons, List.take_succ_cons, begin_loop,
        List.getElem?_cons_zero, Nat.zero_add, begin_loop_cons]
      by_cases hs : s = 0
      · simp [hs]
      · by_cases hx : x < 0
        · simp [hs, hx]
        · simp only [hs, hx, if_false]
          exact ih tail r _

/-- On a constructed view with `N` dimensions `begin` looks at the first `N`
indices only. -/
theorem begin_take_of_ctor (base : Nat) (es : List Nat) (v : multi_view)
    (idxs : List Int) (hv : multi_view.ctor base es = Except.ok v) :
    v.begin idxs = v.begin (idxs.take es.length) := by
  obtain ⟨h0, _, _, _, hsteps⟩ := steps_of_ctor base es v hv
  cases idxs with
  | nil => simp
  | cons x r =>
    obtain ⟨n, hn⟩ : ∃ n, es.length = n + 1 := ⟨es.length - 1, by omega⟩
    have hl : (strides_from 1 es).length = n + 1 := by rw [strides_from_length, hn]
    have h := begin_loop_take (strides_from 1 es)
      (List.replicate (max_dim - es.length) 0) (x :: r) 0
    rw [hl, List.take_succ_cons] at h
    simp only [hn] at h
    simp only [hn, List.take_succ_cons, multi_view.begin, hsteps, h]

/-- On a constructed view with `N` dimensions, `end` with more than `N` indices
is `begin` of the first `N`: the incremented index is beyond the dimensions. -/
theorem end_extra_of_ctor (base : Nat) (es : List Nat) (v : multi_view) (T : index_type)
    (first extra : List Int) (hv : multi_view.ctor base es = Except.ok v)
    (hfirst : first.length = es.length) (hextra : extra ≠ []) :
    v.end_ T (first ++ extra) = v.begin first := by
  rcases List.eq_nil_or_concat extra with h | ⟨init, last, h⟩
  · exact absurd h hextra
  · subst h
    rw [List.concat_eq_append, ← List.append_assoc, end_concat,
      begin_take_of_ctor base es v _ hv, List.append_assoc, ← hfirst, List.take_left]

/-! ## The slots of `steps_` and the reads of the loop of `begin` -/

/-- On a constructed view with `N` dimensions the array has `max_dim + 1` slots,
the first `N` nonzero and the others zero. -/
theorem steps_slots_of_ctor (base : Nat) (es : List Nat) (v : multi_view)
    (hv : multi_view.ctor base es = Except.ok v) :
    v.steps_.length = max_dim + 1 ∧
    (∀ i, i < es.length → ∃ s, v.steps_[i]? = some s ∧ s ≠ 0) ∧
    (∀ i, es.length ≤ i → i ≤ max_dim → v.steps_[i]? = some 0) := by
  obtain ⟨h0, h1, _, hnz, hsteps⟩ := steps_of_ctor base es v hv
  have hl := strides_from_length 1 es
  refine ⟨?_, ?_, ?_⟩
  · rw [hsteps]
    simp only [List.length_append, List.length_cons, List.length_replicate, hl]
    omega
  · intro i hi
    have hi2 : i < (strides_from 1 es).length := by rw [hl]; exact hi
    refine ⟨(strides_from 1 es)[i], ?_, hnz _ (List.getElem_mem _)⟩
    rw [hsteps, List.getElem?_append_left hi2, List.getElem?_eq_getElem hi2]
  · intro i hi hi10
    rw [hsteps, List.getElem?_append_right (by rw [hl]; exact hi), hl,
      ← List.replicate_succ, List.getElem?_replicate]
    rw [if_pos (by omega)]

/-- The recorded loop ends as the loop of `begin` does. -/
theorem begin_loop_rec_result (steps : List Nat) (idxs : List Int) :
    ∀ (i offset : Nat),
    (begin_loop_rec steps i idxs offset).result = begin_loop steps i idxs offset := by
  induction idxs with
  | nil => intro i offset; rfl
  | cons idx rest ih =>
    intro i offset
    simp only [begin_loop_rec, begin_loop]
    cases steps[i]? with
    | none => rfl
    | some s =>
      by_cases hs : s = 0
      · simp [hs]
      · by_cases hx : idx < 0
        · simp [hs, hx]
        · simp only [hs, hx, if_false]
          exact ih _ _

/-- With a zero in slot `n`, a run of the loop from a position `i ≤ n` reads only
positions from `i` to `n`, each below `i` plus the number of indices left. -/
theorem begin_loop_rec_reads (steps : List Nat) (n : Nat) (hz : steps[n]? = some 0)
    (idxs : List Int) : ∀ (i offset : Nat), i ≤ n →
    ∀ p ∈ (begin_loop_rec steps i idxs offset).reads,
      i ≤ p ∧ p ≤ n ∧ p < i + idxs.length := by
  induction idxs with
  | nil => intro i offset _ p hp; simp [begin_loop_rec] at hp
  | cons idx rest ih =>
    intro i offset hi p hp
    simp only [begin_loop_rec] at hp
    simp only [List.length_cons]
    cases hsi : steps[i]? with
    | none =>
      simp only [hsi, List.mem_singleton] at hp
      omega
    | some s =>
      simp only [hsi] at hp
      by_cases hs : s = 0
      · simp only [hs, if_true, List.mem_singleton] at hp
        omega
      · by_cases hx : idx < 0
        · simp only [hs, hx, if_false, if_true, List.mem_singleton] at hp
          omega
        · simp only [hs, hx, if_false, List.mem_cons] at hp
          have hin : i ≠ n := by
            intro h
            rw [h, hz] at hsi
            exact hs (Option.some.inj hsi).symm
          rcases hp with h | h | h
          · omega
          · omega
          · have := ih (i + 1) _ (by omega) p h
            omega

/-- With nonzero slots below `n` and a zero in slot `n`, a run of the loop from a
position `i ≤ n` whose indices for the positions below `n` are non-negative adds
the terms of the positions `i, i + 1, ...` up to the last index or to `n - 1`. -/
theorem begin_loop_rec_terms (steps : List Nat) (n : Nat)
    (hnz : ∀ j, j < n → ∃ s, steps[j]? = some s ∧ s ≠ 0) (hz : steps[n]? = some 0)
    (idxs : List Int) : ∀ (i offset : Nat), i ≤ n →
    (∀ x ∈ idxs.take (n - i), 0 ≤ x) →
    (begin_loop_rec steps i idxs offset).terms
      = List.range' i (min idxs.length (n - i)) := by
  induction idxs with
  | nil => intro i offset _ _; simp [begin_loop_rec]
  | cons idx rest ih =>
    intro i offset hi hnn
    simp only [begin_loop_rec, List.length_cons]
    rcases Nat.eq_or_lt_of_le hi with h | h
    · subst h
      simp [hz]
    · obtain ⟨s, hs1, hs2⟩ := hnz i h
      obtain ⟨m, hm⟩ : ∃ m, n - i = m + 1 := ⟨n - i - 1, by omega⟩
      rw [hm, List.take_succ_cons] at hnn
      have hx : ¬ idx < 0 := not_lt.mpr (hnn idx (List.mem_cons_self _ _))
      have hm2 : n - (i + 1) = m := by omega
      simp only [hs1, hs2, hx, if_false]
      rw [ih (i + 1) _ (by omega)
        (by rw [hm2]; exact fun x hx => hnn x (List.mem_cons_of_mem _ hx)), hm2, hm,
        Nat.succ_min_succ, List.range'_succ]

/-! ## Sub-ranges inside their parent -/

/-- C1 (amended). On a successfully constructed view with `N` dimensions and for
`1 ≤ k ≤ N` non-negative indices, `begin` returns the base plus the sum
`Σ_{i<k} idx_i * strides[i]` over the stored strides reduced modulo `2^64`
(the offset is a `std::size_t`); it is the base plus the exact sum whenever
that sum is below `2^64`. -/
theorem C1_begin_is_base_plus_sum_mod (base : Nat) (es : List Nat) (v : multi_view)
    (idxs : List Int) (hv : multi_view.ctor base es = Except.ok v)
    (hk : 1 ≤ idxs.length) (hkN : idxs.length ≤ es.length) (hnn : ∀ x ∈ idxs, 0 ≤ x) :
    v.begin idxs = Except.ok (v.base_ + weighted_sum idxs v.steps_ % size_mod) ∧
    (weighted_sum idxs v.steps_ < size_mod →
      v.begin idxs = Except.ok (v.base_ + weighted_sum idxs v.steps_)) := by
  have hb := begin_of_ctor base es v idxs hv hk hkN hnn
  obtain ⟨_, _, _, rfl⟩ := ctor_ok_inv base es v hv
  have hw : weighted_sum idxs
      (strides_from 1 es ++ List.replicate (max_dim + 1 - es.length) 0)
      = weighted_sum idxs (strides_from 1 es) :=
    weighted_sum_append_right idxs _ _ (by rw [strides_from_length]; exact hkN)
  simp only [hw]
  refine ⟨hb, fun hlt => ?_⟩
  rw [hb, Nat.mod_eq_of_lt hlt]

/-- Witness for C1 (amended): the 2x3 view at the indices `(1, 2)`. -/
theorem C1_begin_is_base_plus_sum_mod_witness :
    multi_view.ctor 0 [2, 3] = Except.ok view_2x3 ∧
    view_2x3.begin [1, 2] = Except.ok 5 :=
  ⟨rfl, (C1_begin_is_base_plus_sum_mod 0 [2, 3] view_2x3 [1, 2] rfl (by decide) (by decide)
    (by decide)).1⟩

/-- C1 as stated fails: on the view with extents `(2, 4)` the single index
`2^62` has the sum `2^62 * 4 = 2^64`, and `begin` returns the base itself. -/
theorem C1_counterexample :
    ∃ v, multi_view.ctor 0 [2, 4] = Except.ok v ∧
      (0 : Int) ≤ 4611686018427387904 ∧
      v.begin [4611686018427387904] = Except.ok 0 ∧
      v.begin [4611686018427387904]
        ≠ Except.ok (v.base_ + weighted_sum [4611686018427387904] v.steps_) := by
  refine ⟨_, rfl, by decide, rfl, ?_⟩
  intro h
  have h2 := Except.ok.inj h
  revert h2
  decide

/-- C2. For extents `e_0..e_{N-1}` with `1 ≤ N ≤ 10` whose product is nonzero and
below `2^64`, construction succeeds and leaves `steps_[i]` equal to the product
of `e_{i+1}..e_{N-1}` for every `i < N`; in particular `steps_[N-1] = 1` and
`steps_[i] = e_{i+1} * steps_[i+1]`. -/
theorem C2_steps_are_row_major (base : Nat) (es : List Nat)
    (h0 : 1 ≤ es.length) (h1 : es.length ≤ 10)
    (hp0 : es.prod ≠ 0) (hplt : es.prod < 2 ^ 64) :
    ∃ v, multi_view.ctor base es = Except.ok v ∧
      (∀ i, i < es.length → v.steps_[i]? = some (es.drop (i + 1)).prod) ∧
      v.steps_[es.length - 1]? = some 1 ∧
      (∀ i, i + 1 < es.length →
        v.steps_.getD i 0 = es.getD (i + 1) 0 * v.steps_.getD (i + 1) 0) := by
  have hget : ∀ i, i < es.length →
      (row_major_strides es ++ List.replicate (max_dim + 1 - es.length) 0)[i]?
        = some (es.drop (i + 1)).prod := by
    intro i hi
    rw [List.getElem?_append_left (by rw [row_major_strides_length]; exact hi)]
    exact row_major_strides_getElem? es i hi
  refine ⟨_, ctor_of_small base es h0 h1 hp0 hplt, hget, ?_, ?_⟩
  · show (row_major_strides es ++ List.replicate (max_dim + 1 - es.length) 0)[es.length - 1]?
      = some 1
    rw [hget _ (by omega), show es.length - 1 + 1 = es.length by omega]
    simp
  · intro i hi
    show (row_major_strides es ++ List.replicate (max_dim + 1 - es.length) 0).getD i 0
      = es.getD (i + 1) 0
        * (row_major_strides es ++ List.replicate (max_dim + 1 - es.length) 0).getD (i + 1) 0
    simp only [List.getD_eq_getElem?_getD]
    rw [hget i (by omega), hget (i + 1) hi]
    simp only [Option.getD_some]
    have hd : es.drop (i + 1) = es.getD (i + 1) 0 :: es.drop (i + 1 + 1) := by
      rw [List.getD_eq_getElem _ _ hi]
      exact List.drop_eq_getElem_cons hi
    rw [hd, List.prod_cons, List.getD_eq_getElem?_getD]

/-- Witness for C2: the extents `(2, 3, 4)`. -/
theorem C2_steps_are_row_major_witness :
    ∃ v, multi_view.ctor 0 [2, 3, 4] = Except.ok v ∧
      (∀ i, i < 3 → v.steps_[i]? = some (([2, 3, 4] : List Nat).drop (i + 1)).prod) ∧
      v.steps_[3 - 1]? = some 1 ∧
      (∀ i, i + 1 < 3 →
        v.steps_.getD i 0 = ([2, 3, 4] : List Nat).getD (i + 1) 0 * v.steps_.getD (i + 1) 0) :=
  C2_steps_are_row_major 0 [2, 3, 4] (by decide) (by decide) (by decide) (by decide)

/-- C3 (amended). For `1 ≤ N ≤ 10` and extents all `≥ 1` whose product is below
`2^64`, construction succeeds and the stored `num_elements_` equals the product
of the extents. -/
theorem C3_num_elements_is_product (base : Nat) (es : List Nat)
    (h0 : 1 ≤ es.length) (h1 : es.length ≤ 10)
    (hpos : ∀ e ∈ es, 1 ≤ e) (hplt : es.prod < 2 ^ 64) :
    ∃ v, multi_view.ctor base es = Except.ok v ∧ v.num_elements_ = es.prod := by
  have hp0 : es.prod ≠ 0 := Nat.pos_iff_ne_zero.mp (List.prod_pos hpos)
  exact ⟨_, ctor_of_small base es h0 h1 hp0 hplt, rfl⟩

/-- Witness for C3 (amended): the extents `(2, 3, 4)`. -/
theorem C3_num_elements_is_product_witness :
    ∃ v, multi_view.ctor 0 [2, 3, 4] = Except.ok v ∧ v.num_elements_ = 24 :=
  C3_num_elements_is_product 0 [2, 3, 4] (by decide) (by decide) (by decide) (by decide)

/-- C3 as stated fails: the extents `(2^32, 2^32)` are both `≥ 1`, their product
`2^64` wraps to 0 in the `std::size_t` accumulator, and the constructor's
`assert(acc)` fails. -/
theorem C3_counterexample :
    (∀ e ∈ ([4294967296, 4294967296] : List Nat), 1 ≤ e) ∧
    multi_view.ctor 0 [4294967296, 4294967296] = Except.error Fault.assertion ∧
    ¬ ∃ v, multi_view.ctor 0 [4294967296, 4294967296] = Except.ok v ∧
        v.num_elements_ = ([4294967296, 4294967296] : List Nat).prod := by
  refine ⟨by decide, rfl, ?_⟩
  rintro ⟨v, hv, _⟩
  have h : multi_view.ctor 0 [4294967296, 4294967296] = Except.error Fault.assertion := rfl
  rw [h] at hv
  cases hv

/-- C4. On a view constructed from extents all `≥ 1` with product below `2^64`,
the offset `begin` computes for a valid full index tuple lies in
`[0, num_elements_)`, and two valid full tuples with the same result of `begin`
are the same tuple. -/
theorem C4_offset_in_range_and_injective (base : Nat) (es : List Nat) (v : multi_view)
    (hv : multi_view.ctor base es = Except.ok v)
    (hpos : ∀ e ∈ es, 1 ≤ e) (hplt : es.prod < 2 ^ 64) :
    (∀ t, valid_indices es t = true →
      ∃ off, v.begin t = Except.ok (v.base_ + off) ∧ off < v.num_elements_) ∧
    (∀ t u, valid_indices es t = true → valid_indices es u = true →
      v.begin t = v.begin u → t = u) := by
  have hplt : es.prod < size_mod := hplt
  obtain ⟨hN, _, _, hveq⟩ := ctor_ok_inv base es v hv
  have hb : ∀ t, valid_indices es t = true →
      v.begin t = Except.ok (base + weighted_sum t (row_major_strides es)) := by
    intro t ht
    have hlen := valid_indices_length es t ht
    have hlt := weighted_sum_valid_lt es t ht
    exact begin_small base es v t hv hpos hplt (by omega) (by omega)
      (valid_leading_nonneg es t (valid_indices_leading es t ht)) (by omega)
  have hbase : v.base_ = base := by rw [hveq]
  have hnum : v.num_elements_ = es.prod := by
    rw [hveq]; exact Nat.mod_eq_of_lt hplt
  constructor
  · intro t ht
    exact ⟨_, by rw [hb t ht, hbase], by rw [hnum]; exact weighted_sum_valid_lt es t ht⟩
  · intro t u ht hu h
    rw [hb t ht, hb u hu] at h
    have h2 := Except.ok.inj h
    exact weighted_sum_valid_inj es t u ht hu (by omega)

/-- Witness for C4: the 2x3 view; the tuple `(1, 2)` has an offset below 6. -/
theorem C4_offset_in_range_and_injective_witness :
    ∃ off, view_2x3.begin [1, 2] = Except.ok (view_2x3.base_ + off) ∧
      off < view_2x3.num_elements_ :=
  (C4_offset_in_range_and_injective 0 [2, 3] view_2x3 rfl (by decide) (by decide)).1
    [1, 2] rfl

/-- C5. On a view constructed from extents all `≥ 1` with product below `2^64`,
the list `all_tuples es` holds exactly the valid full index tuples, in strictly
increasing lexicographic order, and `begin` maps it to the positions
`base + 0, base + 1, ..., base + (num_elements_ - 1)` in this order: the `j`-th
tuple has offset `j`. -/
theorem C5_enumeration_gives_consecutive_offsets (base : Nat) (es : List Nat)
    (v : multi_view) (hv : multi_view.ctor base es = Except.ok v)
    (hpos : ∀ e ∈ es, 1 ≤ e) (hplt : es.prod < 2 ^ 64) :
    (∀ t, t ∈ all_tuples es ↔ valid_indices es t = true) ∧
    List.Pairwise (List.Lex (fun a b : Int => a < b)) (all_tuples es) ∧
    (all_tuples es).map v.begin
      = (List.range v.num_elements_).map (fun j => Except.ok (v.base_ + j)) := by
  have hplt : es.prod < size_mod := hplt
  obtain ⟨hN, _, _, hveq⟩ := ctor_ok_inv base es v hv
  have hbase : v.base_ = base := by rw [hveq]
  have hnum : v.num_elements_ = es.prod := by
    rw [hveq]; exact Nat.mod_eq_of_lt hplt
  refine ⟨mem_all_tuples es, all_tuples_sorted es, ?_⟩
  rw [hbase, hnum, ← all_tuples_offsets es, List.map_map]
  apply List.map_congr_left
  intro t hmem
  have ht := (mem_all_tuples es t).mp hmem
  have hlen := valid_indices_length es t ht
  have hlt := weighted_sum_valid_lt es t ht
  exact begin_small base es v t hv hpos hplt (by omega) (by omega)
    (valid_leading_nonneg es t (valid_indices_leading es t ht)) (by omega)

/-- Witness for C5: the 2x3 view. -/
theorem C5_enumeration_gives_consecutive_offsets_witness :
    (all_tuples [2, 3]).map view_2x3.begin
      = (List.range view_2x3.num_elements_).map (fun j => Except.ok (view_2x3.base_ + j)) :=
  (C5_enumeration_gives_consecutive_offsets 0 [2, 3] view_2x3 rfl (by decide)
    (by decide)).2.2

/-- C6 (amended). For every view and every index tuple of length `k ≥ 1`, written
as the leading indices `init` followed by the last index `last`, whose last index
is not the greatest value of its index type, `end` returns exactly what `begin`
returns for `init` followed by `last + 1`. In every case `end_impl` adds 1 to the
last supplied index only, in the index type, and passes every other index
unchanged. -/
theorem C6_end_is_begin_of_bumped (v : multi_view) (T : index_type) (init : List Int)
    (last : Int) :
    (last ≠ T.hi → v.end_ T (init ++ [last]) = v.begin (init ++ [last + 1])) ∧
    v.end_ T (init ++ [last]) = v.begin (init ++ [T.add last 1]) ∧
    v.end_ T (init ++ [last])
      = v.end_impl T (index_sequence_for (init ++ [last])) (init ++ [last]) ∧
    List.zipWith
      (fun s idx => T.add idx (if s = (init ++ [last]).length - 1 then 1 else 0))
      (index_sequence_for (init ++ [last])) (init ++ [last])
      = init ++ [T.add last 1] := by
  have hend : v.end_ T (init ++ [last])
      = v.end_impl T (index_sequence_for (init ++ [last])) (init ++ [last]) := by
    cases init <;> rfl
  refine ⟨fun hne => ?_, end_concat v T init last, hend, end_impl_pack T init last⟩
  rw [end_concat, index_type.add_one_of_ne T last hne]

/-- Witness for C6 (amended): on the 2x3 view with `int` indices `end(1, 1)` is
`begin(1, 2)`. -/
theorem C6_end_is_begin_of_bumped_witness :
    (1 : Int) ≠ index_type.int32.hi ∧
    view_2x3.end_ index_type.int32 ([1] ++ [1]) = view_2x3.begin ([1] ++ [1 + 1]) :=
  ⟨by decide, (C6_end_is_begin_of_bumped view_2x3 index_type.int32 [1] 1).1 (by decide)⟩

/-- C6 as stated fails at the greatest value of the index type: on the 2x3 view
with `int` indices, `end(2147483647)` increments to `-2147483648` and fails the
assertion of `begin`, while `begin(2147483648)` returns offset `6442450944`; with
`unsigned int` indices `end(4294967295)` increments to 0 and returns the base. -/
theorem C6_counterexample :
    multi_view.ctor 0 [2, 3] = Except.ok view_2x3 ∧
    view_2x3.end_ index_type.int32 [2147483647] = Except.error Fault.assertion ∧
    view_2x3.begin [2147483647 + 1] = Except.ok 6442450944 ∧
    view_2x3.end_ index_type.int32 [2147483647] ≠ view_2x3.begin [2147483647 + 1] ∧
    view_2x3.end_ index_type.uint32 [4294967295] = Except.ok 0 ∧
    view_2x3.begin [4294967295 + 1] = Except.ok 12884901888 := by
  refine ⟨rfl, rfl, rfl, ?_, rfl, rfl⟩
  intro h
  have h1 : view_2x3.end_ index_type.int32 [2147483647]
      = Except.error Fault.assertion := rfl
  have h2 : view_2x3.begin [2147483647 + 1] = Except.ok 6442450944 := rfl
  rw [h1, h2] at h
  cases h

/-- C9. Zero fill: on a constructed `N`-dimensional view and for `1 ≤ k < N`
non-negative indices `p`, `begin(p)` and `begin(p, 0, ..., 0)` (padded to `N`
indices) return the same position, and `operator()(p)` returns the element at
that position. -/
theorem C9_zero_fill (α : Type) (base : Nat) (es : List Nat) (v : multi_view)
    (p : List Int) (mem : List α)
    (hv : multi_view.ctor base es = Except.ok v)
    (hk : 1 ≤ p.length) (hkN : p.length < es.length) (hnn : ∀ x ∈ p, 0 ≤ x) :
    ∃ pos, v.begin p = Except.ok pos ∧
      v.begin (p ++ List.replicate (es.length - p.length) 0) = Except.ok pos ∧
      v.call mem p = deref mem pos ∧
      v.call mem p = v.call mem (p ++ List.replicate (es.length - p.length) 0) := by
  have h1 := begin_of_ctor base es v p hv hk (le_of_lt hkN) hnn
  have h2 := begin_of_ctor base es v (p ++ List.replicate (es.length - p.length) 0) hv
    (by simp; omega) (by simp; omega)
    (by
      intro x hx
      rcases List.mem_append.mp hx with h | h
      · exact hnn x h
      · rw [List.eq_of_mem_replicate h])
  rw [weighted_sum_append_zeros] at h2
  refine ⟨_, h1, h2, ?_, ?_⟩
  · simp only [multi_view.call, h1]
  · simp only [multi_view.call, h1, h2]

/-- Witness for C9: the 2x3 view over `0, ..., 5` at the single index `1`. -/
theorem C9_zero_fill_witness :
    ∃ pos, view_2x3.begin [1] = Except.ok pos ∧
      view_2x3.begin ([1] ++ List.replicate (2 - 1) 0) = Except.ok pos ∧
      view_2x3.call [0, 1, 2, 3, 4, 5] [1] = deref [0, 1, 2, 3, 4, 5] pos ∧
      view_2x3.call [0, 1, 2, 3, 4, 5] [1]
        = view_2x3.call [0, 1, 2, 3, 4, 5] ([1] ++ List.replicate (2 - 1) 0) :=
  C9_zero_fill Nat 0 [2, 3] view_2x3 [1] [0, 1, 2, 3, 4, 5] rfl (by decide) (by decide)
    (by decide)

/-- C10. For every view, `begin()` with no indices returns the base position
unchanged and `end()` with no indices returns `base + num_elements_`, so the
whole-object range has length `num_elements_`. -/
theorem C10_whole_range (v : multi_view) (T : index_type) :
    v.begin [] = Except.ok v.base_ ∧
    v.end_ T [] = Except.ok (v.base_ + v.num_elements_) ∧
    (v.base_ + v.num_elements_) - v.base_ = v.num_elements_ :=
  ⟨rfl, rfl, Nat.add_sub_cancel_left _ _⟩

/-- C11. For every extent list of length 1..10 that contains a 0, construction is
rejected: the constructor's `assert(acc)` on the accumulated product fails and
no view is produced. -/
theorem C11_zero_extent_rejected (base : Nat) (es : List Nat)
    (h0 : 1 ≤ es.length) (h1 : es.length ≤ 10) (hz : 0 ∈ es) :
    multi_view.ctor base es = Except.error Fault.assertion := by
  rw [ctor_eq base es h0 h1, List.prod_eq_zero hz]
  simp

/-- Witness for C11: the extents `(2, 0, 3)`. -/
theorem C11_zero_extent_rejected_witness :
    multi_view.ctor 0 [2, 0, 3] = Except.error Fault.assertion :=
  C11_zero_extent_rejected 0 [2, 0, 3] (by decide) (by decide) (by decide)

/-- C12. The dimension-count check of the constructor rejects the construction
exactly when the number of extents is 0 or greater than `max_dim = 10`; it
accepts every count from 1 to 10. -/
theorem C12_dimension_count_check (base : Nat) (es : List Nat) :
    multi_view.ctor base es = Except.error Fault.static_assertion
      ↔ (es.length = 0 ∨ 10 < es.length) := by
  by_cases hn : 0 < es.length ∧ es.length ≤ max_dim
  · rw [ctor_eq base es hn.1 hn.2]
    have h10 : es.length ≤ 10 := hn.2
    constructor
    · intro h
      by_cases hp : es.prod % size_mod = 0
      · simp [hp] at h
      · simp [hp] at h
    · intro h
      omega
  · have h : multi_view.ctor base es = Except.error Fault.static_assertion := by
      simp only [multi_view.ctor, hn, if_false]
    simp only [h, true_iff]
    simp only [max_dim] at hn
    omega

/-- Witness for C12: no extent and eleven extents are rejected by the check, ten
extents are not. -/
theorem C12_dimension_count_check_witness :
    multi_view.ctor 0 [] = Except.error Fault.static_assertion ∧
    multi_view.ctor 0 [1, 1, 1, 1, 1, 1, 1, 1, 1, 1, 1]
      = Except.error Fault.static_assertion ∧
    ¬ multi_view.ctor 0 [1, 1, 1, 1, 1, 1, 1, 1, 1, 1]
      = Except.error Fault.static_assertion :=
  ⟨(C12_dimension_count_check 0 []).mpr (Or.inl rfl),
   (C12_dimension_count_check 0 [1, 1, 1, 1, 1, 1, 1, 1, 1, 1, 1]).mpr (Or.inr (by decide)),
   fun h => absurd ((C12_dimension_count_check 0 [1, 1, 1, 1, 1, 1, 1, 1, 1, 1]).mp h)
     (by decide)⟩

/-- C13. On a successfully constructed `N`-dimensional view and for an index
tuple of length `1 ≤ k ≤ N`: if at least one index is negative, `begin` and
`operator()` fail the assertion instead of returning; if all indices are
non-negative, `begin` returns a position and no assertion fails. -/
theorem C13_negative_index_asserts (α : Type) (base : Nat) (es : List Nat)
    (v : multi_view) (idxs : List Int) (mem : List α)
    (hv : multi_view.ctor base es = Except.ok v)
    (hk : 1 ≤ idxs.length) (hkN : idxs.length ≤ es.length) :
    ((∃ x ∈ idxs, x < 0) →
      v.begin idxs = Except.error Fault.assertion ∧
      v.call mem idxs = Except.error Fault.assertion) ∧
    ((∀ x ∈ idxs, 0 ≤ x) →
      ∃ pos, v.begin idxs = Except.ok pos ∧ v.call mem idxs = deref mem pos ∧
        v.call mem idxs ≠ Except.error Fault.assertion) := by
  constructor
  · intro hneg
    obtain ⟨_, _, _, hnz, hsteps⟩ := steps_of_ctor base es v hv
    have hb : v.begin idxs = Except.error Fault.assertion := by
      cases idxs with
      | nil => simp at hk
      | cons x r =>
        simp only [multi_view.begin, hsteps]
        rw [begin_loop_neg (x :: r) (strides_from 1 es) _ 0
          (by rw [strides_from_length]; exact hkN) hnz hneg]
    exact ⟨hb, by simp only [multi_view.call, hb]⟩
  · intro hnn
    have hb := begin_of_ctor base es v idxs hv hk hkN hnn
    refine ⟨_, hb, by simp only [multi_view.call, hb], ?_⟩
    simp only [multi_view.call, hb, deref]
    cases mem[base + weighted_sum idxs (strides_from 1 es) % size_mod]? with
    | none => simp
    | some a => simp

/-- Witness for C13: on the 2x3 view over `0, ..., 5` the tuple `(1, -1)` fails
the assertion. -/
theorem C13_negative_index_asserts_witness :
    view_2x3.begin [1, -1] = Except.error Fault.assertion ∧
    view_2x3.call [0, 1, 2, 3, 4, 5] [1, -1] = Except.error Fault.assertion :=
  (C13_negative_index_asserts Nat 0 [2, 3] view_2x3 [1, -1] [0, 1, 2, 3, 4, 5] rfl
    (by decide) (by decide)).1 (by decide)

/-- C14. On a successfully constructed `N`-dimensional view, indices beyond the
first `N` are ignored by `begin` and `operator()`: for `first` of length `N` and
any further indices `extra`, whatever their number and values, the tuple `first`
followed by `extra` gives what `first` gives. -/
theorem C14_extra_indices_ignored (α : Type) (base : Nat) (es : List Nat)
    (v : multi_view) (first extra : List Int) (mem : List α)
    (hv : multi_view.ctor base es = Except.ok v)
    (hfirst : first.length = es.length) :
    v.begin (first ++ extra) = v.begin first ∧
    v.call mem (first ++ extra) = v.call mem first := by
  have hb : v.begin (first ++ extra) = v.begin first := by
    rw [begin_take_of_ctor base es v _ hv, ← hfirst, List.take_left]
  exact ⟨hb, by simp only [multi_view.call, hb]⟩

/-- Witness for C14: on the 2x3 view the tuple `(1, 2, -7, 9)` gives what `(1, 2)`
gives. -/
theorem C14_extra_indices_ignored_witness :
    view_2x3.begin ([1, 2] ++ [-7, 9]) = view_2x3.begin [1, 2] ∧
    view_2x3.call [0, 1, 2, 3, 4, 5] ([1, 2] ++ [-7, 9])
      = view_2x3.call [0, 1, 2, 3, 4, 5] [1, 2] :=
  C14_extra_indices_ignored Nat 0 [2, 3] view_2x3 [1, 2] [-7, 9] [0, 1, 2, 3, 4, 5] rfl
    (by decide)

/-- C15, the code at the failing input: on the 2x3 view with `int` indices,
`end(1, 2, 0)` returns offset 5, the position of `begin(1, 2, 0)` and of
`begin(1, 2)`, so the range `[begin(1, 2, 0), end(1, 2, 0))` is empty, while
`end(1, 2)` returns offset 6. -/
theorem C15_end_with_extra_at_failing_input :
    multi_view.ctor 0 [2, 3] = Except.ok view_2x3 ∧
    view_2x3.end_ index_type.int32 [1, 2, 0] = Except.ok 5 ∧
    view_2x3.begin [1, 2, 0] = Except.ok 5 ∧
    view_2x3.begin [1, 2] = Except.ok 5 ∧
    view_2x3.end_ index_type.int32 [1, 2] = Except.ok 6 ∧
    view_2x3.end_ index_type.int32 [1, 2, 0] ≠ view_2x3.end_ index_type.int32 [1, 2] := by
  refine ⟨rfl, rfl, rfl, rfl, rfl, ?_⟩
  intro h
  have h1 : view_2x3.end_ index_type.int32 [1, 2, 0] = Except.ok 5 := rfl
  have h2 : view_2x3.end_ index_type.int32 [1, 2] = Except.ok 6 := rfl
  rw [h1, h2] at h
  have h3 := Except.ok.inj h
  revert h3
  decide

/-- C16. The 2x3 scenario: the view built with the extents `(2, 3)` over
`data = {0, 1, 2, 3, 4, 5}` stores the strides `(3, 1)` and 6 elements;
`view(0, 0) = 0`, `view(1, 2) = 5`, `view(1) = 3`; `begin(1)` is at offset 3 and
`end(1)` at offset 6, so `[begin(1), end(1))` holds exactly `3, 4, 5`. The
indices are of the type `int`. -/
theorem C16_two_by_three_scenario :
    ∃ v b e, multi_view.ctor 0 [2, 3] = Except.ok v ∧
      v.steps_.take 2 = [3, 1] ∧
      v.num_elements_ = 6 ∧
      v.call [0, 1, 2, 3, 4, 5] [0, 0] = Except.ok 0 ∧
      v.call [0, 1, 2, 3, 4, 5] [1, 2] = Except.ok 5 ∧
      v.call [0, 1, 2, 3, 4, 5] [1] = Except.ok 3 ∧
      v.begin [1] = Except.ok b ∧ b = v.base_ + 3 ∧
      v.end_ index_type.int32 [1] = Except.ok e ∧ e = v.base_ + 6 ∧
      (List.range' b (e - b)).map (deref [0, 1, 2, 3, 4, 5])
        = [Except.ok 3, Except.ok 4, Except.ok 5] :=
  ⟨view_2x3, 3, 6, rfl, rfl, rfl, rfl, rfl, rfl, rfl, rfl, rfl, rfl, rfl⟩

/-- C17. Sentinel invariant: whenever the constructor's assertion passes for an
extent list of length `N` in 1..10, with the products taken modulo `2^64`, the
array `steps_` has its 11 slots, every `steps_[i]` with `i < N` is nonzero and
every `steps_[i]` with `N ≤ i ≤ 10` is zero. -/
theorem C17_sentinel_invariant (base : Nat) (es : List Nat) (v : multi_view)
    (hv : multi_view.ctor base es = Except.ok v) :
    1 ≤ es.length ∧ es.length ≤ 10 ∧ v.steps_.length = 11 ∧
    (∀ i, i < es.length → ∃ s, v.steps_[i]? = some s ∧ s ≠ 0) ∧
    (∀ i, es.length ≤ i → i ≤ 10 → v.steps_[i]? = some 0) := by
  obtain ⟨h0, h1, _, _, _⟩ := steps_of_ctor base es v hv
  obtain ⟨hlen, hnz, hz⟩ := steps_slots_of_ctor base es v hv
  exact ⟨h0, h1, hlen, hnz, hz⟩

/-- Witness for C17: the extents `(2^32, 2^32 + 1)`, whose product wraps around
to `2^32`. -/
theorem C17_sentinel_invariant_witness :
    multi_view.ctor 0 [4294967296, 4294967297] = Except.ok view_wrapped ∧
    view_wrapped.steps_.length = 11 ∧
    (∀ i, i < 2 → ∃ s, view_wrapped.steps_[i]? = some s ∧ s ≠ 0) ∧
    (∀ i, 2 ≤ i → i ≤ 10 → view_wrapped.steps_[i]? = some 0) :=
  ⟨rfl, (C17_sentinel_invariant 0 [4294967296, 4294967297] view_wrapped rfl).2.2⟩

/-- C18 (amended). Array-read safety of `begin`: on a successfully constructed
`N`-dimensional view and for an index tuple of any length `k`, with any values,
the loop of `begin` reads `steps_` only at positions `0..min(k, N)`, all inside
the 11-slot array; and when the indices at the positions below `min(k, N)` are
non-negative it adds exactly the terms of the positions `0, ..., min(k, N) - 1`
and ends with their sum modulo `2^64`. -/
theorem C18_begin_reads_in_bounds (base : Nat) (es : List Nat) (v : multi_view)
    (idxs : List Int) (hv : multi_view.ctor base es = Except.ok v) :
    (begin_loop_rec v.steps_ 0 idxs 0).result = begin_loop v.steps_ 0 idxs 0 ∧
    v.steps_.length = 11 ∧
    (∀ p ∈ (begin_loop_rec v.steps_ 0 idxs 0).reads,
      p ≤ min idxs.length es.length ∧ p < v.steps_.length) ∧
    ((∀ x ∈ idxs.take es.length, 0 ≤ x) →
      (begin_loop_rec v.steps_ 0 idxs 0).terms
        = List.range (min idxs.length es.length) ∧
      (begin_loop_rec v.steps_ 0 idxs 0).result
        = Except.ok (weighted_sum (idxs.take es.length) v.steps_ % size_mod)) := by
  obtain ⟨_, h1, _, hnz0, hsteps⟩ := steps_of_ctor base es v hv
  obtain ⟨hlen, hnz, hz⟩ := steps_slots_of_ctor base es v hv
  have hzN : v.steps_[es.length]? = some 0 := hz es.length (le_refl _) h1
  refine ⟨begin_loop_rec_result _ _ _ _, hlen, ?_, ?_⟩
  · intro p hp
    have h := begin_loop_rec_reads v.steps_ es.length hzN idxs 0 0 (Nat.zero_le _) p hp
    rw [hlen]
    have h10 : es.length ≤ 10 := h1
    simp only [max_dim]
    omega
  · intro hnn
    constructor
    · rw [begin_loop_rec_terms v.steps_ es.length hnz hzN idxs 0 0 (Nat.zero_le _)
        (by simpa using hnn), List.range_eq_range']
      simp
    · have hl := strides_from_length 1 es
      have htl : (idxs.take es.length).length ≤ (strides_from 1 es).length := by
        rw [hl, List.length_take]; exact Nat.min_le_left _ _
      rw [begin_loop_rec_result, hsteps, begin_loop_take, hl,
        begin_loop_eq _ _ _ 0 htl hnz0 hnn size_mod_pos, Nat.zero_add,
        weighted_sum_append_right _ _ _ htl]

/-- Witness for C18 (amended): on the 2x3 view the tuple `(1, 2, 7)` makes the
loop add the terms of the positions 0 and 1 and end at offset 5. -/
theorem C18_begin_reads_in_bounds_witness :
    (∀ x ∈ ([1, 2, 7] : List Int).take 2, 0 ≤ x) ∧
    (begin_loop_rec view_2x3.steps_ 0 [1, 2, 7] 0).terms = List.range (min 3 2) ∧
    (begin_loop_rec view_2x3.steps_ 0 [1, 2, 7] 0).result = Except.ok 5 :=
  ⟨by decide,
   ((C18_begin_reads_in_bounds 0 [2, 3] view_2x3 [1, 2, 7] rfl).2.2.2 (by decide)).1,
   ((C18_begin_reads_in_bounds 0 [2, 3] view_2x3 [1, 2, 7] rfl).2.2.2 (by decide)).2⟩

/-- C18 as stated fails: on the 2x3 view and for the tuple `(-1, 0)` of length
`k = 2` the loop fails its assertion at position 0 and adds no term, not the
`min(k, N) = 2` terms. -/
theorem C18_counterexample :
    multi_view.ctor 0 [2, 3] = Except.ok view_2x3 ∧
    (begin_loop_rec view_2x3.steps_ 0 [-1, 0] 0).reads = [0] ∧
    (begin_loop_rec view_2x3.steps_ 0 [-1, 0] 0).terms = [] ∧
    (begin_loop_rec view_2x3.steps_ 0 [-1, 0] 0).result = Except.error Fault.assertion ∧
    (begin_loop_rec view_2x3.steps_ 0 [-1, 0] 0).terms
      ≠ List.range (min ([-1, 0] : List Int).length ([2, 3] : List Nat).length) := by
  refine ⟨rfl, rfl, rfl, rfl, ?_⟩
  have h : (begin_loop_rec view_2x3.steps_ 0 [-1, 0] 0).terms = [] := rfl
  rw [h]
  decide

/-- C20. The negative-index check does not cover the last index of `end`: on a
successfully constructed `N`-dimensional view and for `k ≤ N` indices, of any
index type, whose last one is `-1` and whose others are non-negative, `end` fails
no assertion and returns the position that `begin` returns for the same indices
with last one 0. -/
theorem C20_end_accepts_minus_one (base : Nat) (es : List Nat) (v : multi_view)
    (T : index_type) (init : List Int) (hv : multi_view.ctor base es = Except.ok v)
    (hkN : init.length + 1 ≤ es.length) (hnn : ∀ x ∈ init, 0 ≤ x) :
    ∃ pos, v.end_ T (init ++ [-1]) = Except.ok pos ∧
      v.begin (init ++ [0]) = Except.ok pos := by
  have hb := begin_of_ctor base es v (init ++ [0]) hv (by simp) (by simpa using hkN)
    (by
      intro x hx
      rcases List.mem_append.mp hx with h | h
      · exact hnn x h
      · rw [List.mem_singleton] at h; omega)
  have hne : (-1 : Int) ≠ T.hi := by
    have := T.hi_pos
    omega
  refine ⟨_, ?_, hb⟩
  rw [end_concat, index_type.add_one_of_ne T (-1) hne, show (-1 : Int) + 1 = 0 by decide,
    hb]

/-- Witness for C20: on the 2x3 view with `int` indices `end(1, -1)` is
`begin(1, 0)`, at offset 3. -/
theorem C20_end_accepts_minus_one_witness :
    ∃ pos, view_2x3.end_ index_type.int32 ([1] ++ [-1]) = Except.ok pos ∧
      view_2x3.begin ([1] ++ [0]) = Except.ok pos :=
  C20_end_accepts_minus_one 0 [2, 3] view_2x3 index_type.int32 [1] rfl (by decide)
    (by decide)

end hhxx
